import Mathlib

/-!
Shallow embedding of the per-key rate limiter in
`LLD-Python/rate-limiter/main.py` (sliding-window and token-bucket
algorithms plus the `RateLimiterFactory` selector).

Timestamps and token counts are modelled as rationals (`ℚ`); a key's
sliding-window deque is a `List ℚ` (head = oldest), a token bucket is a
pair `(tokens, lastRefill)`, and the per-key stores are total functions
`String → List ℚ` / `String → Option (ℚ × ℚ)` where an absent key maps
to `[]` / `none`.
-/

/-- The head-trim loop of `SlidingWindowRateLimiter.allow_requests`:
`while requests and requests[0] < current_time - self.time_window:
requests.popleft()`.  `cutoff` is `current_time - self.time_window`. -/
def trim (cutoff : ℚ) : List ℚ → List ℚ
  | [] => []
  | t :: ts => if t < cutoff then trim cutoff ts else t :: ts

/-- One call of `SlidingWindowRateLimiter.allow_requests` acting on a
single key's deque: trim expired entries, then admit (appending `now`)
iff fewer than `max_requests` remain. -/
def swStep (maxRequests : ℕ) (timeWindow now : ℚ) (requests : List ℚ) :
    Bool × List ℚ :=
  let l := trim (now - timeWindow) requests
  if l.length < maxRequests then (true, l ++ [now]) else (false, l)

/-- The refill expression of `TokenBucketRateLimiter.allow_requests`:
`min(self.capacity, bucket['tokens'] + (now - bucket['last_refill']) *
self.refill_rate)`. -/
def tbRefill (capacity rate now tokens lastRefill : ℚ) : ℚ :=
  min capacity (tokens + (now - lastRefill) * rate)

/-- One call of `TokenBucketRateLimiter.allow_requests` acting on a
single key's bucket.  `none` models a key absent from `self.buckets`;
the code then inserts `{'tokens': self.capacity, 'last_refill': now}`
before the refill-and-debit sequence.  Returns the decision together
with the new `(tokens, last_refill)` pair. -/
def tbStep (capacity rate now : ℚ) (bucket : Option (ℚ × ℚ)) :
    Bool × ℚ × ℚ :=
  let b := bucket.getD (capacity, now)
  let tokens := tbRefill capacity rate now b.1 b.2
  if 1 ≤ tokens then (true, tokens - 1, now) else (false, tokens, now)

/-- A sequence of sliding-window calls on one key at the given clock
readings, threading the deque and accumulating the list of admitted
timestamps (the readings at which the call returned `True`). -/
def swRun (maxRequests : ℕ) (timeWindow : ℚ) :
    List ℚ → List ℚ → List ℚ → List ℚ × List ℚ
  | [], requests, admitted => (requests, admitted)
  | c :: cs, requests, admitted =>
      let r := swStep maxRequests timeWindow c requests
      swRun maxRequests timeWindow cs r.2
        (if r.1 then admitted ++ [c] else admitted)

/-- A sequence of token-bucket calls on one key at the given clock
readings, threading the bucket and collecting the boolean decisions in
order. -/
def tbRun (capacity rate : ℚ) :
    List ℚ → Option (ℚ × ℚ) → Option (ℚ × ℚ) × List Bool
  | [], bucket => (bucket, [])
  | c :: cs, bucket =>
      let r := tbStep capacity rate c bucket
      let rest := tbRun capacity rate cs (some r.2)
      (rest.1, r.1 :: rest.2)

/-- The two concrete limiter classes with their construction
parameters (`SlidingWindowRateLimiter(max_requests, time_window)` and
`TokenBucketRateLimiter(capacity, refill_rate)`). -/
inductive Limiter : Type
  | slidingWindow (maxRequests : ℕ) (timeWindow : ℚ)
  | tokenBucket (capacity rate : ℚ)
deriving DecidableEq

/-- The numeric construction parameters are positive, the spec's notion
of a valid (working) configuration. -/
def Limiter.valid : Limiter → Prop
  | .slidingWindow maxRequests timeWindow => 0 < maxRequests ∧ 0 < timeWindow
  | .tokenBucket capacity rate => 0 < capacity ∧ 0 < rate

/-- `RateLimiterFactory(rate_limiter_type)`: returns
`TokenBucketRateLimiter(100, 100/60)` for `'token_bucket'`,
`SlidingWindowRateLimiter(100, 60.0)` for `'sliding_window'`, and
raises `ValueError(f"Unknown Limiter Type: ...")` otherwise. -/
def RateLimiterFactory (t : String) : Except String Limiter :=
  if t = "token_bucket" then .ok (.tokenBucket 100 (100 / 60))
  else if t = "sliding_window" then .ok (.slidingWindow 100 60)
  else .error ("Unknown Limiter Type: " ++ t)

/-- Sliding-window calls over a whole trace of `(key, clock)` events,
acting on the per-key store; results are `(key, decision)` in call
order. -/
def swRunTrace (maxRequests : ℕ) (timeWindow : ℚ) :
    List (String × ℚ) → (String → List ℚ) →
    (String → List ℚ) × List (String × Bool)
  | [], m => (m, [])
  | (k, c) :: es, m =>
      let r := swStep maxRequests timeWindow c (m k)
      let rest := swRunTrace maxRequests timeWindow es
        (fun k2 => if k2 = k then r.2 else m k2)
      (rest.1, (k, r.1) :: rest.2)

/-- Token-bucket calls over a whole trace of `(key, clock)` events,
acting on the per-key store; results are `(key, decision)` in call
order. -/
def tbRunTrace (capacity rate : ℚ) :
    List (String × ℚ) → (String → Option (ℚ × ℚ)) →
    (String → Option (ℚ × ℚ)) × List (String × Bool)
  | [], m => (m, [])
  | (k, c) :: es, m =>
      let r := tbStep capacity rate c (m k)
      let rest := tbRunTrace capacity rate es
        (fun k2 => if k2 = k then some r.2 else m k2)
      (rest.1, (k, r.1) :: rest.2)

/-- Modelled from the spec's algorithm text for the token-bucket step
(section 4.3): compute `elapsed = now - last_refill`, refill
`tokens = min(capacity, tokens + elapsed * refill_rate)`, set
`last_refill = now` unconditionally, then debit one token and admit iff
`tokens >= 1`.  Compared against `tbStep` for the refinement claim. -/
def tbSpecStep (capacity rate now tokens lastRefill : ℚ) : Bool × ℚ × ℚ :=
  let elapsed := now - lastRefill
  let tokens2 := min capacity (tokens + elapsed * rate)
  if tokens2 ≥ 1 then (true, tokens2 - 1, now) else (false, tokens2, now)

/-! ### Basic facts about the trim loop and the steps -/

theorem swStep_eq (maxRequests : ℕ) (timeWindow now : ℚ) (requests : List ℚ) :
    swStep maxRequests timeWindow now requests =
      if (trim (now - timeWindow) requests).length < maxRequests then
        (true, trim (now - timeWindow) requests ++ [now])
      else (false, trim (now - timeWindow) requests) := rfl

theorem tbStep_eq (capacity rate now : ℚ) (bucket : Option (ℚ × ℚ)) :
    tbStep capacity rate now bucket =
      if 1 ≤ tbRefill capacity rate now (bucket.getD (capacity, now)).1
          (bucket.getD (capacity, now)).2 then
        (true, tbRefill capacity rate now (bucket.getD (capacity, now)).1
          (bucket.getD (capacity, now)).2 - 1, now)
      else (false, tbRefill capacity rate now (bucket.getD (capacity, now)).1
          (bucket.getD (capacity, now)).2, now) := rfl

theorem tbStep_lastRefill (capacity rate now : ℚ) (bucket : Option (ℚ × ℚ)) :
    (tbStep capacity rate now bucket).2.2 = now := by
  rw [tbStep_eq]
  split <;> rfl

theorem trim_length_le (c : ℚ) (l : List ℚ) : (trim c l).length ≤ l.length := by
  induction l with
  | nil => simp [trim]
  | cons t ts ih =>
      by_cases h : t < c
      · simp only [trim, if_pos h]
        exact le_trans ih (Nat.le_succ _)
      · simp [trim, if_neg h]

theorem trim_eq_of_length_eq (c : ℚ) (l : List ℚ)
    (h : (trim c l).length = l.length) : trim c l = l := by
  induction l with
  | nil => rfl
  | cons t ts ih =>
      by_cases ht : t < c
      · exfalso
        rw [show trim c (t :: ts) = trim c ts from by simp [trim, if_pos ht]] at h
        have := trim_length_le c ts
        simp at h
        omega
      · simp [trim, if_neg ht]

theorem trim_exists_pre (c : ℚ) (l : List ℚ) :
    ∃ pre, l = pre ++ trim c l ∧ ∀ e ∈ pre, e < c := by
  induction l with
  | nil => exact ⟨[], rfl, by simp⟩
  | cons t ts ih =>
      by_cases ht : t < c
      · obtain ⟨pre, hp, hall⟩ := ih
        refine ⟨t :: pre, ?_, ?_⟩
        · simp only [trim, if_pos ht, List.cons_append]
          exact congrArg (t :: ·) hp
        · intro e he
          rcases List.mem_cons.mp he with rfl | h
          · exact ht
          · exact hall e h
      · exact ⟨[], by simp [trim, if_neg ht], by simp⟩

theorem trim_eq_dropWhile (c : ℚ) (l : List ℚ) :
    trim c l = l.dropWhile (fun e => decide (e < c)) := by
  induction l with
  | nil => rfl
  | cons t ts ih =>
      by_cases ht : t < c
      · simp [trim, if_pos ht, List.dropWhile_cons, ht, ih]
      · simp [trim, if_neg ht, List.dropWhile_cons, ht]

theorem trim_sorted_ge (c : ℚ) (l : List ℚ)
    (hs : List.Pairwise (· ≤ ·) l) : ∀ e ∈ trim c l, c ≤ e := by
  induction l with
  | nil => simp [trim]
  | cons t ts ih =>
      rcases List.pairwise_cons.mp hs with ⟨hall, hts⟩
      by_cases ht : t < c
      · intro e he
        rw [show trim c (t :: ts) = trim c ts from by
          simp [trim, if_pos ht]] at he
        exact ih hts e he
      · intro e he
        rw [show trim c (t :: ts) = t :: ts from by
          simp [trim, if_neg ht]] at he
        rcases List.mem_cons.mp he with rfl | h
        · exact not_lt.mp ht
        · exact le_trans (not_lt.mp ht) (hall e h)

/-- C3 (amended): the trim step removes exactly the longest head segment
of timestamps strictly below `cutoff` (a timestamp equal to `cutoff`
survives, in contrast to the claimed strict-`>` convention), and on a
chronologically sorted deque every retained timestamp satisfies
`cutoff ≤ timestamp`. -/
theorem sliding_window_trim_convention (c : ℚ) (l : List ℚ)
    (hs : List.Pairwise (· ≤ ·) l) :
    l = l.takeWhile (fun e => decide (e < c)) ++ trim c l ∧
    (∀ e ∈ l.takeWhile (fun e => decide (e < c)), e < c) ∧
    (∀ e ∈ trim c l, c ≤ e) := by
  refine ⟨?_, ?_, trim_sorted_ge c l hs⟩
  · rw [trim_eq_dropWhile]
    exact (List.takeWhile_append_dropWhile _ _).symm
  · intro e he
    simpa using List.mem_takeWhile_imp he

/-- C3 fails as stated: with `max_requests = 1`, `time_window = 10`,
state `[0]` and `now = 10` (so `cutoff = 0`), the timestamp `0` equals
the cutoff yet is retained (the call is even denied because of it),
contradicting the claim that it is expired and removed. -/
theorem sliding_window_trim_convention_counterexample :
    swStep 1 10 10 [0] = (false, [0]) ∧ ¬ ((0 : ℚ) > 10 - 10) := by
  constructor
  · norm_num [swStep_eq, trim]
  · norm_num

theorem sliding_window_trim_convention_witness :
    List.Pairwise (· ≤ ·) ([0, 5] : List ℚ) ∧ (3 : ℚ) ≤ 5 := by
  have hs : List.Pairwise (· ≤ ·) ([0, 5] : List ℚ) := by decide
  exact ⟨hs, (sliding_window_trim_convention 3 [0, 5] hs).2.2 5 (by decide)⟩

/-- C6: whenever a sliding-window call is denied (returns `False`) from
a state whose deque does not exceed `max_requests`, the key's deque is
left completely unchanged by the call. -/
theorem sliding_window_denied_frame (maxRequests : ℕ) (timeWindow now : ℚ)
    (l : List ℚ) (hlen : l.length ≤ maxRequests)
    (hdeny : (swStep maxRequests timeWindow now l).1 = false) :
    (swStep maxRequests timeWindow now l).2 = l := by
  rw [swStep_eq] at hdeny ⊢
  by_cases hb : (trim (now - timeWindow) l).length < maxRequests
  · rw [if_pos hb] at hdeny
    simp at hdeny
  · rw [if_neg hb]
    have h1 := trim_length_le (now - timeWindow) l
    have h2 : (trim (now - timeWindow) l).length = l.length := by omega
    exact trim_eq_of_length_eq _ _ h2

theorem sliding_window_denied_frame_witness :
    (swStep 1 10 5 [0]).2 = [0] :=
  sliding_window_denied_frame 1 10 5 [0] (by decide)
    (by norm_num [swStep_eq, trim])

/-- C4: for an already-seen key, one token-bucket call computes exactly
the spec's step — `elapsed = now - last_refill`, refill to
`min(capacity, tokens + elapsed * refill_rate)`, `last_refill = now`
unconditionally (also on denial), admit with a one-token debit iff the
refilled count is at least 1 — and the stored `last_refill` equals
`now` in both branches. -/
theorem token_bucket_step_refines (capacity rate now tokens lastRefill : ℚ) :
    tbStep capacity rate now (some (tokens, lastRefill)) =
      tbSpecStep capacity rate now tokens lastRefill ∧
    (tbStep capacity rate now (some (tokens, lastRefill))).2.2 = now :=
  ⟨rfl, tbStep_lastRefill capacity rate now (some (tokens, lastRefill))⟩

/-- C8: with `capacity = 5`, `refill_rate = 1.0` and a fresh key, five
calls at time 0 are admitted, the sixth at time 0 is denied, and a call
at time 2 is admitted leaving exactly one token (bucket `(1, 2)`). -/
theorem token_bucket_scenario :
    (tbRun 5 1 [0, 0, 0, 0, 0, 0, 2] none).2 =
      [true, true, true, true, true, false, true] ∧
    (tbRun 5 1 [0, 0, 0, 0, 0, 0, 2] none).1 = some (1, 2) := by
  constructor <;> norm_num [tbRun, tbStep_eq, tbRefill, min_def]

/-- C10: the first call for a key with no per-key state is admitted when
`max_requests ≥ 1` (sliding window) resp. `capacity ≥ 1` (token
bucket); the token bucket treats the brand-new key exactly as a bucket
initialized with `tokens = capacity` and `last_refill = now`, and the
admitted first call leaves `(capacity - 1, now)`. -/
theorem fresh_key_first_call (maxRequests : ℕ)
    (capacity rate timeWindow now : ℚ)
    (hm : 1 ≤ maxRequests) (hc : 1 ≤ capacity) :
    swStep maxRequests timeWindow now [] = (true, [now]) ∧
    tbStep capacity rate now none = tbStep capacity rate now
      (some (capacity, now)) ∧
    tbStep capacity rate now none = (true, capacity - 1, now) := by
  refine ⟨?_, rfl, ?_⟩
  · rw [swStep_eq]
    have h0 : (trim (now - timeWindow) []).length < maxRequests := by
      simp [trim]
      omega
    rw [if_pos h0]
    simp [trim]
  · have hr : tbRefill capacity rate now capacity now = capacity := by
      simp [tbRefill]
    have h0 : tbStep capacity rate now none =
        if 1 ≤ capacity then (true, capacity - 1, now)
        else (false, capacity, now) := by
      rw [tbStep_eq]
      simp [hr]
    rw [h0, if_pos hc]

theorem fresh_key_first_call_witness :
    swStep 1 10 7 [] = (true, [7]) ∧
    tbStep 5 1 7 none = tbStep 5 1 7 (some (5, 7)) ∧
    tbStep 5 1 7 none = (true, 4, 7) := by
  have h := fresh_key_first_call 1 5 1 10 7 (le_refl 1) (by norm_num)
  refine ⟨h.1, h.2.1, ?_⟩
  rw [h.2.2]
  norm_num

/-- C7 fails as stated: `elapsed` is not clamped.  With `capacity = 5`,
`refill_rate = 1`, bucket `(4, 10)` and the clock reading `now = 0`
(before `last_refill`), the call stores tokens `-6 < 4`: the backwards
clock reading reduced the key's token count. -/
theorem clock_skew_clamp_counterexample :
    tbStep 5 1 0 (some (4, 10)) = (false, -6, 0) ∧ (-6 : ℚ) < 4 := by
  constructor
  · norm_num [tbStep_eq, tbRefill, min_def]
  · norm_num

/-- C7 (amended): the code uses `elapsed = now - last_refill` with no
clamping, so whenever `now < last_refill` (and `refill_rate > 0`,
`tokens ≤ capacity`) the refill adds the negative amount
`(now - last_refill) * refill_rate`, strictly reducing the key's token
count. -/
theorem clock_skew_no_clamp (capacity rate tokens lastRefill now : ℚ)
    (hnow : now < lastRefill) (hrate : 0 < rate) (htk : tokens ≤ capacity) :
    tbRefill capacity rate now tokens lastRefill =
      tokens + (now - lastRefill) * rate ∧
    tbRefill capacity rate now tokens lastRefill < tokens := by
  have hneg : (now - lastRefill) * rate < 0 :=
    mul_neg_of_neg_of_pos (by linarith) hrate
  constructor
  · exact min_eq_right (by linarith)
  · calc tbRefill capacity rate now tokens lastRefill
        ≤ tokens + (now - lastRefill) * rate := min_le_right _ _
    _ < tokens := by linarith

theorem clock_skew_no_clamp_witness :
    tbRefill 5 1 0 4 10 = 4 + (0 - 10) * 1 ∧ tbRefill 5 1 0 4 10 < 4 :=
  clock_skew_no_clamp 5 1 4 10 0 (by norm_num) (by norm_num) (by norm_num)

/-- C5: `RateLimiterFactory` fails (raises) exactly when the selector is
neither `'token_bucket'` nor `'sliding_window'`; for a recognized
selector it returns a limiter whose (hardcoded) numeric parameters are
positive, and an unrecognized selector yields the `ValueError`, never a
silently defaulted limiter. -/
theorem factory_error_handling (s : String) :
    ((∃ L, RateLimiterFactory s = Except.ok L) ↔
      s = "token_bucket" ∨ s = "sliding_window") ∧
    (∀ L, RateLimiterFactory s = Except.ok L → L.valid) ∧
    (¬ (s = "token_bucket" ∨ s = "sliding_window") →
      RateLimiterFactory s = Except.error ("Unknown Limiter Type: " ++ s)) := by
  by_cases h1 : s = "token_bucket"
  · subst h1
    have hfac : RateLimiterFactory "token_bucket" =
        Except.ok (Limiter.tokenBucket 100 (100 / 60)) := rfl
    refine ⟨⟨fun _ => Or.inl rfl, fun _ => ⟨_, hfac⟩⟩, ?_, ?_⟩
    · intro L hL
      rw [hfac] at hL
      cases hL
      constructor <;> norm_num
    · intro h
      exact absurd (Or.inl rfl) h
  · by_cases h2 : s = "sliding_window"
    · subst h2
      have hfac : RateLimiterFactory "sliding_window" =
          Except.ok (Limiter.slidingWindow 100 60) := by
        unfold RateLimiterFactory
        rw [if_neg h1, if_pos rfl]
      refine ⟨⟨fun _ => Or.inr rfl, fun _ => ⟨_, hfac⟩⟩, ?_, ?_⟩
      · intro L hL
        rw [hfac] at hL
        cases hL
        constructor <;> norm_num
      · intro h
        exact absurd (Or.inr rfl) h
    · have hfac : RateLimiterFactory s =
          Except.error ("Unknown Limiter Type: " ++ s) := by
        unfold RateLimiterFactory
        rw [if_neg h1, if_neg h2]
      refine ⟨⟨?_, ?_⟩, ?_, fun _ => hfac⟩
      · rintro ⟨L, hL⟩
        rw [hfac] at hL
        exact Except.noConfusion hL
      · intro h
        rcases h with h | h <;> contradiction
      · intro L hL
        rw [hfac] at hL
        exact Except.noConfusion hL

theorem factory_error_handling_witness :
    RateLimiterFactory "bogus" =
      Except.error ("Unknown Limiter Type: " ++ "bogus") :=
  (factory_error_handling "bogus").2.2 (by decide)

/-! ### Sliding-window boundedness -/

/-- Membership of a timestamp in the closed trailing window of length
`timeWindow` ending at `T`. -/
def inWin (timeWindow T e : ℚ) : Bool :=
  decide (T - timeWindow ≤ e) && decide (e ≤ T)

/-- Reachability invariant for one key of the sliding-window limiter,
relating the current deque `s` to the full history `adm` of admitted
timestamps after a call at time `lastT`: the history splits into a
dropped part entirely below `lastT - timeWindow` followed by `s`; the
deque holds at most `max_requests` entries; and no trailing window of
length `timeWindow` contains more than `max_requests` admissions. -/
def swInv (maxRequests : ℕ) (timeWindow lastT : ℚ) (s adm : List ℚ) : Prop :=
  (∃ dropped, adm = dropped ++ s ∧ ∀ e ∈ dropped, e < lastT - timeWindow) ∧
  s.length ≤ maxRequests ∧
  ∀ T : ℚ, adm.countP (inWin timeWindow T) ≤ maxRequests

theorem swStep_inv (maxRequests : ℕ) (timeWindow lastT t : ℚ)
    (s adm : List ℚ) (hinv : swInv maxRequests timeWindow lastT s adm)
    (hle : lastT ≤ t) :
    swInv maxRequests timeWindow t (swStep maxRequests timeWindow t s).2
      (if (swStep maxRequests timeWindow t s).1 then adm ++ [t] else adm) := by
  obtain ⟨⟨dropped, hadm, hdrop⟩, hlen, hcount⟩ := hinv
  obtain ⟨pre, hpre, hpreLt⟩ := trim_exists_pre (t - timeWindow) s
  have hdrop2 : ∀ e ∈ dropped ++ pre, e < t - timeWindow := by
    intro e he
    rcases List.mem_append.mp he with h | h
    · exact lt_of_lt_of_le (hdrop e h) (by linarith)
    · exact hpreLt e h
  have hadm2 : adm = (dropped ++ pre) ++ trim (t - timeWindow) s := by
    rw [hadm]
    conv_lhs => rw [hpre]
    rw [List.append_assoc]
  by_cases hb : (trim (t - timeWindow) s).length < maxRequests
  · have hstep : swStep maxRequests timeWindow t s =
        (true, trim (t - timeWindow) s ++ [t]) := by
      rw [swStep_eq, if_pos hb]
    rw [hstep]
    show swInv maxRequests timeWindow t (trim (t - timeWindow) s ++ [t])
      (adm ++ [t])
    refine ⟨⟨dropped ++ pre, ?_, hdrop2⟩, ?_, ?_⟩
    · rw [hadm2, List.append_assoc]
    · simp only [List.length_append, List.length_singleton]
      omega
    · intro T
      rw [List.countP_append]
      by_cases hT : inWin timeWindow T t = true
      · have hT1 : T - timeWindow ≤ t ∧ t ≤ T := by
          simpa [inWin] using hT
        have hz : (dropped ++ pre).countP (inWin timeWindow T) = 0 := by
          rw [List.countP_eq_zero]
          intro e he
          have he2 := hdrop2 e he
          simp only [inWin, Bool.and_eq_true, decide_eq_true_eq, not_and]
          intro h1 h2
          have := hT1.2
          linarith
        have hadmle : adm.countP (inWin timeWindow T) ≤
            (trim (t - timeWindow) s).length := by
          rw [hadm2, List.countP_append, hz]
          simpa using List.countP_le_length (inWin timeWindow T)
        have h1 : List.countP (inWin timeWindow T) [t] ≤ 1 :=
          List.countP_le_length (inWin timeWindow T)
        omega
      · have h0 : List.countP (inWin timeWindow T) [t] = 0 := by
          rw [List.countP_eq_zero]
          intro a ha
          rw [List.mem_singleton.mp ha]
          exact hT
        rw [h0]
        have := hcount T
        omega
  · have hstep : swStep maxRequests timeWindow t s =
        (false, trim (t - timeWindow) s) := by
      rw [swStep_eq, if_neg hb]
    rw [hstep]
    show swInv maxRequests timeWindow t (trim (t - timeWindow) s) adm
    refine ⟨⟨dropped ++ pre, hadm2, hdrop2⟩, ?_, hcount⟩
    have := trim_length_le (t - timeWindow) s
    omega

theorem swRun_inv (maxRequests : ℕ) (timeWindow : ℚ) (clocks : List ℚ) :
    ∀ (s adm : List ℚ) (lastT : ℚ),
      List.Chain (· ≤ ·) lastT clocks →
      swInv maxRequests timeWindow lastT s adm →
      ∃ lt2, swInv maxRequests timeWindow lt2
        (swRun maxRequests timeWindow clocks s adm).1
        (swRun maxRequests timeWindow clocks s adm).2 := by
  induction clocks with
  | nil =>
      intro s adm lastT _ hinv
      exact ⟨lastT, hinv⟩
  | cons c cs ih =>
      intro s adm lastT hch hinv
      rcases List.chain_cons.mp hch with ⟨hle, hch2⟩
      have h2 := swStep_inv maxRequests timeWindow lastT c s adm hinv hle
      have hrun : swRun maxRequests timeWindow (c :: cs) s adm =
          swRun maxRequests timeWindow cs (swStep maxRequests timeWindow c s).2
            (if (swStep maxRequests timeWindow c s).1 then adm ++ [c]
             else adm) := rfl
      rw [hrun]
      exact ih _ _ c hch2 h2

/-- C1: starting from no state, for any sequence of calls on one key
with non-decreasing clock readings, every trailing window of length
`timeWindow` contains at most `max_requests` admitted timestamps, and
the retained deque never holds more than `max_requests` entries. -/
theorem sliding_window_bounded (maxRequests : ℕ) (timeWindow : ℚ)
    (clocks : List ℚ) (hmono : List.Chain' (· ≤ ·) clocks) :
    (swRun maxRequests timeWindow clocks [] []).1.length ≤ maxRequests ∧
    ∀ T : ℚ, (swRun maxRequests timeWindow clocks [] []).2.countP
      (inWin timeWindow T) ≤ maxRequests := by
  cases clocks with
  | nil =>
      refine ⟨by simp [swRun], fun T => by simp [swRun]⟩
  | cons c cs =>
      have hch : List.Chain (· ≤ ·) c (c :: cs) :=
        List.chain_cons.mpr ⟨le_refl c, hmono⟩
      have hinit : swInv maxRequests timeWindow c [] [] :=
        ⟨⟨[], rfl, by simp⟩, by simp, fun T => by simp⟩
      obtain ⟨lt2, hfin⟩ :=
        swRun_inv maxRequests timeWindow (c :: cs) [] [] c hch hinit
      exact ⟨hfin.2.1, hfin.2.2⟩

theorem sliding_window_bounded_witness :
    (swRun 1 10 [0, 5, 10, 11] [] []).1.length ≤ 1 ∧
    (swRun 1 10 [0, 5, 10, 11] [] []).2.countP (inWin 10 11) ≤ 1 := by
  have h := sliding_window_bounded 1 10 [0, 5, 10, 11]
    (by norm_num [List.chain'_cons, List.chain'_singleton])
  exact ⟨h.1, h.2 11⟩

/-! ### Token-bucket boundedness -/

/-- Per-key bucket invariant after a call at time `lastT`: if the key
has a bucket, its token count lies in `[0, capacity]` and its
`last_refill` does not exceed `lastT`. -/
def tbInv (capacity lastT : ℚ) (bucket : Option (ℚ × ℚ)) : Prop :=
  ∀ tk lr, bucket = some (tk, lr) → 0 ≤ tk ∧ tk ≤ capacity ∧ lr ≤ lastT

theorem tbStep_inv (capacity rate lastT t : ℚ) (bucket : Option (ℚ × ℚ))
    (hcap : 0 ≤ capacity) (hrate : 0 ≤ rate)
    (hinv : tbInv capacity lastT bucket) (hle : lastT ≤ t) :
    tbInv capacity t (some (tbStep capacity rate t bucket).2) := by
  have hbase : 0 ≤ (bucket.getD (capacity, t)).1 ∧
      (bucket.getD (capacity, t)).1 ≤ capacity ∧
      (bucket.getD (capacity, t)).2 ≤ t := by
    cases bucket with
    | none => exact ⟨hcap, le_refl _, le_refl _⟩
    | some b =>
        obtain ⟨b1, b2⟩ := b
        obtain ⟨h1, h2, h3⟩ := hinv b1 b2 rfl
        exact ⟨h1, h2, le_trans h3 hle⟩
  have hrf : 0 ≤ tbRefill capacity rate t (bucket.getD (capacity, t)).1
        (bucket.getD (capacity, t)).2 ∧
      tbRefill capacity rate t (bucket.getD (capacity, t)).1
        (bucket.getD (capacity, t)).2 ≤ capacity := by
    unfold tbRefill
    refine ⟨le_min hcap ?_, min_le_left _ _⟩
    have hmul : 0 ≤ (t - (bucket.getD (capacity, t)).2) * rate :=
      mul_nonneg (sub_nonneg.mpr hbase.2.2) hrate
    linarith [hbase.1]
  intro tk lr hsome
  rw [tbStep_eq] at hsome
  by_cases hge : 1 ≤ tbRefill capacity rate t (bucket.getD (capacity, t)).1
      (bucket.getD (capacity, t)).2
  · rw [if_pos hge] at hsome
    simp only [Option.some.injEq, Prod.mk.injEq] at hsome
    obtain ⟨h1, h2⟩ := hsome
    refine ⟨by linarith [hrf.1], by linarith [hrf.2], by linarith⟩
  · rw [if_neg hge] at hsome
    simp only [Option.some.injEq, Prod.mk.injEq] at hsome
    obtain ⟨h1, h2⟩ := hsome
    refine ⟨by linarith [hrf.1], by linarith [hrf.2], by linarith⟩

theorem tbRun_inv (capacity rate : ℚ) (clocks : List ℚ)
    (hcap : 0 ≤ capacity) (hrate : 0 ≤ rate) :
    ∀ (bucket : Option (ℚ × ℚ)) (lastT : ℚ),
      List.Chain (· ≤ ·) lastT clocks →
      tbInv capacity lastT bucket →
      ∃ lt2, tbInv capacity lt2 (tbRun capacity rate clocks bucket).1 := by
  induction clocks with
  | nil =>
      intro bucket lastT _ hinv
      exact ⟨lastT, hinv⟩
  | cons c cs ih =>
      intro bucket lastT hch hinv
      rcases List.chain_cons.mp hch with ⟨hle, hch2⟩
      have h2 := tbStep_inv capacity rate lastT c bucket hcap hrate hinv hle
      have hrun : (tbRun capacity rate (c :: cs) bucket).1 =
          (tbRun capacity rate cs (some (tbStep capacity rate c bucket).2)).1 :=
        rfl
      rw [hrun]
      exact ih _ c hch2 h2

/-- C2 (amended): for non-decreasing clock readings (and nonnegative
`capacity` and `refill_rate`), after any sequence of calls on a fresh
key the bucket's tokens satisfy `0 ≤ tokens ≤ capacity`, and each call
sets `last_refill` to the current reading, so `last_refill` never
decreases. -/
theorem token_bucket_bounded (capacity rate : ℚ) (clocks : List ℚ)
    (hcap : 0 ≤ capacity) (hrate : 0 ≤ rate)
    (hmono : List.Chain' (· ≤ ·) clocks) :
    (∀ tk lr, (tbRun capacity rate clocks none).1 = some (tk, lr) →
      0 ≤ tk ∧ tk ≤ capacity) ∧
    (∀ tk lr now, lr ≤ now →
      lr ≤ (tbStep capacity rate now (some (tk, lr))).2.2) := by
  constructor
  · cases clocks with
    | nil =>
        intro tk lr h
        simp [tbRun] at h
    | cons c cs =>
        intro tk lr h
        have hch : List.Chain (· ≤ ·) c (c :: cs) :=
          List.chain_cons.mpr ⟨le_refl c, hmono⟩
        have hinit : tbInv capacity c none := by
          intro tk2 lr2 h2
          cases h2
        obtain ⟨lt2, hfin⟩ :=
          tbRun_inv capacity rate (c :: cs) hcap hrate none c hch hinit
        obtain ⟨h1, h2, _⟩ := hfin tk lr h
        exact ⟨h1, h2⟩
  · intro tk lr now hle
    rw [tbStep_lastRefill]
    exact hle

/-- C2 fails as stated for arbitrary clock readings: with
`capacity = 5`, `refill_rate = 1` and the decreasing readings 10 then
0, the second call stores tokens `-6 < 0` and moves `last_refill` from
10 back to 0. -/
theorem token_bucket_bounded_counterexample :
    (tbRun 5 1 [10, 0] none).1 = some (-6, 0) ∧ ¬ (0 ≤ (-6 : ℚ)) ∧
    (tbStep 5 1 10 none).2.2 = 10 ∧ ¬ ((10 : ℚ) ≤ 0) := by
  refine ⟨?_, by norm_num, tbStep_lastRefill 5 1 10 none, by norm_num⟩
  norm_num [tbRun, tbStep_eq, tbRefill, min_def]

theorem token_bucket_bounded_witness :
    0 ≤ (4 : ℚ) ∧ (4 : ℚ) ≤ 5 := by
  have h := token_bucket_bounded 5 1 [0, 1] (by norm_num) (by norm_num)
    (by norm_num [List.chain'_cons, List.chain'_singleton])
  exact h.1 4 1 (by norm_num [tbRun, tbStep_eq, tbRefill, min_def])

/-! ### Per-key isolation -/

theorem swRunTrace_cons (maxRequests : ℕ) (timeWindow : ℚ) (k : String)
    (c : ℚ) (es : List (String × ℚ)) (m : String → List ℚ) :
    swRunTrace maxRequests timeWindow ((k, c) :: es) m =
      ((swRunTrace maxRequests timeWindow es
          (fun k2 => if k2 = k then (swStep maxRequests timeWindow c (m k)).2
           else m k2)).1,
       (k, (swStep maxRequests timeWindow c (m k)).1) ::
        (swRunTrace maxRequests timeWindow es
          (fun k2 => if k2 = k then (swStep maxRequests timeWindow c (m k)).2
           else m k2)).2) := rfl

theorem tbRunTrace_cons (capacity rate : ℚ) (k : String) (c : ℚ)
    (es : List (String × ℚ)) (m : String → Option (ℚ × ℚ)) :
    tbRunTrace capacity rate ((k, c) :: es) m =
      ((tbRunTrace capacity rate es
          (fun k2 => if k2 = k then some (tbStep capacity rate c (m k)).2
           else m k2)).1,
       (k, (tbStep capacity rate c (m k)).1) ::
        (tbRunTrace capacity rate es
          (fun k2 => if k2 = k then some (tbStep capacity rate c (m k)).2
           else m k2)).2) := rfl

theorem swRunTrace_isolated (maxRequests : ℕ) (timeWindow : ℚ)
    (tr : List (String × ℚ)) :
    ∀ (m m2 : String → List ℚ) (A : String), m A = m2 A →
      ((swRunTrace maxRequests timeWindow tr m).2.filter
          (fun r => decide (r.1 = A)) =
        (swRunTrace maxRequests timeWindow
          (tr.filter (fun e => decide (e.1 = A))) m2).2) ∧
      (swRunTrace maxRequests timeWindow tr m).1 A =
        (swRunTrace maxRequests timeWindow
          (tr.filter (fun e => decide (e.1 = A))) m2).1 A := by
  induction tr with
  | nil =>
      intro m m2 A h
      exact ⟨rfl, h⟩
  | cons e es ih =>
      obtain ⟨k, c⟩ := e
      intro m m2 A h
      rw [swRunTrace_cons]
      by_cases hk : k = A
      · subst hk
        have hfil : ((k, c) :: es).filter (fun e => decide (e.1 = k)) =
            (k, c) :: es.filter (fun e => decide (e.1 = k)) := by
          simp [List.filter_cons]
        rw [hfil, swRunTrace_cons, ← h]
        obtain ⟨ih1, ih2⟩ := ih
          (fun k2 => if k2 = k then (swStep maxRequests timeWindow c (m k)).2
           else m k2)
          (fun k2 => if k2 = k then (swStep maxRequests timeWindow c (m k)).2
           else m2 k2) k (by simp)
        constructor
        · dsimp only
          rw [List.filter_cons, if_pos (by simp), ih1]
        · exact ih2
      · have hfil : ((k, c) :: es).filter (fun e => decide (e.1 = A)) =
            es.filter (fun e => decide (e.1 = A)) := by
          simp [List.filter_cons, hk]
        rw [hfil]
        obtain ⟨ih1, ih2⟩ := ih
          (fun k2 => if k2 = k then (swStep maxRequests timeWindow c (m k)).2
           else m k2) m2 A
          (by
            have hA : ¬ A = k := fun hh => hk hh.symm
            simp only [if_neg hA]
            exact h)
        constructor
        · dsimp only
          rw [List.filter_cons, if_neg (by simp [hk])]
          exact ih1
        · exact ih2

theorem tbRunTrace_isolated (capacity rate : ℚ)
    (tr : List (String × ℚ)) :
    ∀ (m m2 : String → Option (ℚ × ℚ)) (A : String), m A = m2 A →
      ((tbRunTrace capacity rate tr m).2.filter
          (fun r => decide (r.1 = A)) =
        (tbRunTrace capacity rate
          (tr.filter (fun e => decide (e.1 = A))) m2).2) ∧
      (tbRunTrace capacity rate tr m).1 A =
        (tbRunTrace capacity rate
          (tr.filter (fun e => decide (e.1 = A))) m2).1 A := by
  induction tr with
  | nil =>
      intro m m2 A h
      exact ⟨rfl, h⟩
  | cons e es ih =>
      obtain ⟨k, c⟩ := e
      intro m m2 A h
      rw [tbRunTrace_cons]
      by_cases hk : k = A
      · subst hk
        have hfil : ((k, c) :: es).filter (fun e => decide (e.1 = k)) =
            (k, c) :: es.filter (fun e => decide (e.1 = k)) := by
          simp [List.filter_cons]
        rw [hfil, tbRunTrace_cons, ← h]
        obtain ⟨ih1, ih2⟩ := ih
          (fun k2 => if k2 = k then some (tbStep capacity rate c (m k)).2
           else m k2)
          (fun k2 => if k2 = k then some (tbStep capacity rate c (m k)).2
           else m2 k2) k (by simp)
        constructor
        · dsimp only
          rw [List.filter_cons, if_pos (by simp), ih1]
        · exact ih2
      · have hfil : ((k, c) :: es).filter (fun e => decide (e.1 = A)) =
            es.filter (fun e => decide (e.1 = A)) := by
          simp [List.filter_cons, hk]
        rw [hfil]
        obtain ⟨ih1, ih2⟩ := ih
          (fun k2 => if k2 = k then some (tbStep capacity rate c (m k)).2
           else m k2) m2 A
          (by
            have hA : ¬ A = k := fun hh => hk hh.symm
            simp only [if_neg hA]
            exact h)
        constructor
        · dsimp only
          rw [List.filter_cons, if_neg (by simp [hk])]
          exact ih1
        · exact ih2

/-- C9: the results for key `A` are the same whether the trace contains
interleaved calls for other keys or only `A`'s own calls (with their
clock readings), for both limiters: filtering the interleaved run's
results to `A` equals running `A`'s sub-trace alone, and `A`'s per-key
state agrees as well.  Calls for other keys neither read nor modify
`A`'s state. -/
theorem per_key_isolation (maxRequests : ℕ) (timeWindow capacity rate : ℚ)
    (tr : List (String × ℚ)) (m : String → List ℚ)
    (mb : String → Option (ℚ × ℚ)) (A : String) :
    ((swRunTrace maxRequests timeWindow tr m).2.filter
        (fun r => decide (r.1 = A)) =
      (swRunTrace maxRequests timeWindow
        (tr.filter (fun e => decide (e.1 = A))) m).2) ∧
    ((swRunTrace maxRequests timeWindow tr m).1 A =
      (swRunTrace maxRequests timeWindow
        (tr.filter (fun e => decide (e.1 = A))) m).1 A) ∧
    ((tbRunTrace capacity rate tr mb).2.filter
        (fun r => decide (r.1 = A)) =
      (tbRunTrace capacity rate
        (tr.filter (fun e => decide (e.1 = A))) mb).2) ∧
    ((tbRunTrace capacity rate tr mb).1 A =
      (tbRunTrace capacity rate
        (tr.filter (fun e => decide (e.1 = A))) mb).1 A) := by
  obtain ⟨h1, h2⟩ :=
    swRunTrace_isolated maxRequests timeWindow tr m m A rfl
  obtain ⟨h3, h4⟩ := tbRunTrace_isolated capacity rate tr mb mb A rfl
  exact ⟨h1, h2, h3, h4⟩
